import Mathlib

/-
Verification development for the graxinc/cache library.

The definitions below are a shallow embedding of the Go sources:
  * GFloat, roundToEven        — model of the float64 values used by the ARC policy
  * ARC (t1/t2/b1/b2 lists)    — policy/arc.go (ARC over internal.KeyList)
  * Cache, CacheValue          — cache.go (concurrent cache core, sequentialized)
  * NodeSt                     — counting/counting.go Node state machine (linearized)

Modelling conventions, stated once:
  * A KeyList is modelled as a Lean List of keys, head = list front.  The Go
    structure pairs the linked list with a key→element map whose only use is
    O(1) lookup/removal; at the level of keys the list alone is the state.
  * Machine integers (int64/int32 counters, uint32 sizes) are modelled as
    Int/Nat; none of the verified scenarios approach the overflow bounds.
    The uint32 expiration stamp wraps, which the model keeps via `% 2 ^ 32`.
  * Go float64 values are modelled by GFloat: an exact rational together with
    the IEEE special values +Inf, -Inf and NaN.  Finite arithmetic is exact
    rational arithmetic — it abstracts from binary rounding.  Every pinned
    scenario only produces values that are exactly representable in binary64
    (integers, their quotients by 1, and the saturated bounds 0 and 1), so on
    those traces the model agrees with the implementation bit-for-bit.
  * Concurrency: the cache ops are sequentialized (the single-writer premise
    of the claims).  TryLock always succeeds for a lone caller, the eviction
    CAS guard always wins, so both disappear from the sequential model.
    The counting Node is modelled as a state machine whose steps are the
    linearization points of the atomic operations.
  * Go panics (panicDelete, panicPolicyAdd) are modelled by Option: a cache
    operation returns none exactly when the Go code would panic.
-/

namespace GraxCache

/-! ## GFloat: model of the float64 values used by the ARC policy -/

inductive GFloat where
  | fin (q : ℚ)
  | inf
  | negInf
  | nan
deriving DecidableEq, Repr

namespace GFloat

/-- IEEE addition on the modelled values (finite arithmetic exact). -/
def add : GFloat → GFloat → GFloat
  | fin a, fin b => fin (a + b)
  | fin _, inf => inf
  | inf, fin _ => inf
  | fin _, negInf => negInf
  | negInf, fin _ => negInf
  | inf, inf => inf
  | negInf, negInf => negInf
  | _, _ => nan

/-- IEEE division: finite/0 gives a signed infinity (0/0 gives NaN),
finite/±Inf gives 0. The policy only divides nonnegative counts. -/
def div : GFloat → GFloat → GFloat
  | fin a, fin b =>
    if b ≠ 0 then fin (a / b)
    else if 0 < a then inf
    else if a < 0 then negInf
    else nan
  | fin _, inf => fin 0
  | fin _, negInf => fin 0
  | inf, fin b => if b < 0 then negInf else inf
  | negInf, fin b => if b < 0 then inf else negInf
  | _, _ => nan

def neg : GFloat → GFloat
  | fin a => fin (-a)
  | inf => negInf
  | negInf => inf
  | nan => nan

/-- Go built-in max for float64 (NaN propagates; signed zeros not modelled). -/
def fmax : GFloat → GFloat → GFloat
  | nan, _ => nan
  | _, nan => nan
  | inf, _ => inf
  | _, inf => inf
  | negInf, b => b
  | a, negInf => a
  | fin a, fin b => fin (max a b)

/-- Go built-in min for float64 (NaN propagates; signed zeros not modelled). -/
def fmin : GFloat → GFloat → GFloat
  | nan, _ => nan
  | _, nan => nan
  | negInf, _ => negInf
  | _, negInf => negInf
  | inf, b => b
  | a, inf => a
  | fin a, fin b => fin (min a b)

instance : Add GFloat := ⟨GFloat.add⟩

instance : Div GFloat := ⟨GFloat.div⟩

instance : Neg GFloat := ⟨GFloat.neg⟩

/-- The value is a finite float inside the closed interval [0,1]. -/
def Finite01 (g : GFloat) : Prop := ∃ q : ℚ, g = fin q ∧ 0 ≤ q ∧ 1 ≥ q

end GFloat

/-- Executable floor of a rational (num and den are in lowest terms with a
positive denominator, so flooring divide of num by den is the floor). -/
def ratFloor (q : ℚ) : ℤ := q.num.fdiv (q.den : ℤ)

/-- math.RoundToEven on an exact rational: round to nearest, ties to even. -/
def roundToEven (q : ℚ) : ℤ :=
  let f : ℤ := ratFloor q
  let r : ℚ := q - f
  if r < 1/2 then f
  else if 1/2 < r then f + 1
  else if f % 2 = 0 then f else f + 1

/-! ## ARC policy (policy/arc.go, the KeyList-based implementation) -/

/-- ARC state: the four keyed sequences (head = front) and the adaptation
parameter. Field names follow the Go struct. -/
structure ARC (K : Type) where
  t1 : List K
  t2 : List K
  b1 : List K
  b2 : List K
  t1TargetFraction : GFloat
deriving DecidableEq, Repr

namespace ARC

variable {K : Type} [DecidableEq K]

def new (K : Type) : ARC K := ⟨[], [], [], [], .fin 0⟩

def tLen (c : ARC K) : ℕ := c.t1.length + c.t2.length

/-- t1TargetLen: int(math.RoundToEven(t1TargetFraction * float64(tLen))).
The fraction is always a finite value in [0,1] (an invariant of the
operations below), so only the fin branch is reachable. -/
def t1TargetLen (c : ARC K) : ℤ :=
  match c.t1TargetFraction with
  | .fin q => roundToEven (q * (c.tLen : ℚ))
  | _ => 0

/-- bound 0-1 step of setT1TargetFraction: min(max(v, 0), 1). -/
def clip01 (v : GFloat) : GFloat := GFloat.fmin (GFloat.fmax v (.fin 0)) (.fin 1)

/-- setT1TargetFraction: v := t1TargetFraction + delta/tLen, bounded to [0,1]. -/
def setT1TargetFraction (c : ARC K) (delta : GFloat) : ARC K :=
  { c with t1TargetFraction :=
      clip01 (c.t1TargetFraction + delta / GFloat.fin (c.tLen : ℚ)) }

/-- delta of b1Hit: 1, or float64(|b2|)/float64(|b1|) when |b2| > |b1|. -/
def b1Delta (c : ARC K) : GFloat :=
  if c.b1.length < c.b2.length then .fin ((c.b2.length : ℚ) / (c.b1.length : ℚ))
  else .fin 1

/-- delta of b2Hit: 1, or float64(|b1|)/float64(|b2|) when |b1| > |b2|. -/
def b2Delta (c : ARC K) : GFloat :=
  if c.b2.length < c.b1.length then .fin ((c.b1.length : ℚ) / (c.b2.length : ℚ))
  else .fin 1

/-- b1Hit (caller guarantees b1 nonempty): push p toward recency. -/
def b1Hit (c : ARC K) : ARC K := c.setT1TargetFraction c.b1Delta

/-- b2Hit (caller guarantees b2 nonempty): push p toward frequency. -/
def b2Hit (c : ARC K) : ARC K := c.setT1TargetFraction (-c.b2Delta)

/-- Promote: t2 hit moves to front of t2; t1 hit moves to front of t2;
otherwise a silent no-op returning false. -/
def Promote (c : ARC K) (k : K) : ARC K × Bool :=
  if k ∈ c.t2 then ({ c with t2 := k :: c.t2.erase k }, true)
  else if k ∈ c.t1 then ({ c with t1 := c.t1.erase k, t2 := k :: c.t2 }, true)
  else (c, false)

/-- The tRemove closure of EvictSkip: scan a list from the tail, skip keys
with skip = true, remove and return the first non-skipped key. -/
def tRemove (skip : K → Bool) : List K → Option (K × List K)
  | [] => none
  | x :: xs =>
    match tRemove skip xs with
    | some (e, xs') => some (e, x :: xs')
    | none => if skip x then none else some (x, xs)

/-- EvictSkip: try t1 when |t1| > 0 and (|t1| > t1TargetLen or |t2| = 0),
demoting the victim to b1; otherwise (or when everything in t1 was skipped)
try t2, demoting to b2. -/
def EvictSkip (c : ARC K) (skip : K → Bool) : ARC K × Option K :=
  let t2Branch : ARC K × Option K :=
    match tRemove skip c.t2 with
    | some (e, t2') => ({ c with t2 := t2', b2 := e :: c.b2 }, some e)
    | none => (c, none)
  if 0 < c.t1.length ∧ (c.t1TargetLen < (c.t1.length : ℤ) ∨ c.t2.length = 0) then
    match tRemove skip c.t1 with
    | some (e, t1') => ({ c with t1 := t1', b1 := e :: c.b1 }, some e)
    | none => t2Branch
  else t2Branch

def Evict (c : ARC K) : ARC K × Option K := c.EvictSkip (fun _ => false)

/-- The b-list trim loop of Add: remove tail elements while the length
exceeds the bound: the kept front is take of the clamped bound. -/
def trimTail (l : List K) (bound : ℤ) : List K :=
  if (bound : ℤ) < l.length then l.take bound.toNat else l

/-- Add: false when live; ghost hits adapt p and promote into t2; a pure
miss trims both ghost tails and pushes onto the front of t1. -/
def Add (c : ARC K) (k : K) : ARC K × Bool :=
  if k ∈ c.t2 ∨ k ∈ c.t1 then (c, false)
  else if k ∈ c.b2 then
    let c1 := c.b2Hit
    ({ c1 with b2 := c1.b2.erase k, t2 := k :: c1.t2 }, true)
  else if k ∈ c.b1 then
    let c1 := c.b1Hit
    ({ c1 with b1 := c1.b1.erase k, t2 := k :: c1.t2 }, true)
  else
    let t := c.t1TargetLen
    ({ c with b1 := trimTail c.b1 ((c.tLen : ℤ) - t),
              b2 := trimTail c.b2 t,
              t1 := k :: c.t1 }, true)

/-- The Values loop: pull one element of t1 and one of t2 per round until
both iterators are exhausted (once t1 is out, the remaining rounds drain
t2 one element at a time). -/
def valuesGo : List K → List K → List K
  | [], ys => ys
  | x :: xs, ys =>
    x :: (match ys with
          | [] => valuesGo xs []
          | y :: ys' => y :: valuesGo xs ys')

/-- Values: hottest to coldest, ping-ponging between t1 and t2. -/
def Values (c : ARC K) : List K := valuesGo c.t1 c.t2

structure ARCParams where
  t1Len : ℕ
  t2Len : ℕ
  b1Len : ℕ
  b2Len : ℕ
  t1TargetFraction : GFloat
deriving DecidableEq, Repr

def params (c : ARC K) : ARCParams :=
  ⟨c.t1.length, c.t2.length, c.b1.length, c.b2.length, c.t1TargetFraction⟩

def Clear (_c : ARC K) : ARC K := ARC.new K

end ARC

/-- Modelled from the spec wording for Values (section 4.1): interleave the
heads of T1 and T2 alternately, then drain the longer list. -/
def specHotToCold {K : Type} (t1 t2 : List K) : List K :=
  ((t1.zip t2).map (fun p => [p.1, p.2])).flatten ++ t1.drop t2.length ++ t2.drop t1.length

/-- Driver for concrete ARC scenarios. -/
inductive ArcOp (K : Type) where
  | add (k : K)
  | promote (k : K)
  | evict

def arcStep {K : Type} [DecidableEq K] (c : ARC K) : ArcOp K → ARC K
  | .add k => (c.Add k).1
  | .promote k => (c.Promote k).1
  | .evict => c.Evict.1

def arcRun {K : Type} [DecidableEq K] (ops : List (ArcOp K)) : ARC K :=
  ops.foldl arcStep (ARC.new K)

/-! ## Cache core (cache.go), sequentialized

The concurrent map abstraction is modelled as an association list with
first-match lookup; Add replaces in place, Delete removes the entry.  The
three atomic counters are plain integers of the state.  Wall-clock time is
passed to each operation as `now`, the seconds elapsed since the expiration
epoch (uint32 in Go). -/

section CacheCore

variable {K V : Type} [DecidableEq K]

def assocFind : List (K × V) → K → Option V
  | [], _ => none
  | (k', v) :: rest, k => if k' = k then some v else assocFind rest k

def assocReplace : List (K × V) → K → V → List (K × V)
  | [], _, _ => []
  | (k', v') :: rest, k, v =>
    if k' = k then (k, v) :: rest else (k', v') :: assocReplace rest k v

def assocErase : List (K × V) → K → List (K × V)
  | [], _ => []
  | (k', v') :: rest, k => if k' = k then rest else (k', v') :: assocErase rest k

end CacheCore

/-- CacheValue: expiration stamp (uint32 seconds since the epoch, 0 = never),
the recorded size and the user value. -/
structure CacheValue (V : Type) where
  expire : ℕ
  size : ℕ
  v : V
deriving DecidableEq, Repr

/-- Cache state: immutable expiration seconds, the map, the policy and the
three counters (cap, size, length in the Go struct). -/
structure Cache (K V : Type) where
  expiration : ℕ
  items : List (K × CacheValue V)
  policy : ARC K
  cap : ℤ
  size : ℤ
  length : ℤ
deriving DecidableEq, Repr

namespace Cache

variable {K V : Type} [DecidableEq K]

/-- NewCache: capacity defaults to 100 when non-positive.  The duration →
uint32-seconds conversion of the options is applied by the caller; the model
receives the resulting expiration directly. -/
def new (K V : Type) (capacity : ℤ) (expiration : ℕ) : Cache K V :=
  { expiration := expiration
    items := []
    policy := ARC.new K
    cap := if capacity ≤ 0 then 100 else capacity
    size := 0
    length := 0 }

def Len (c : Cache K V) : ℤ := c.length

def Size (c : Cache K V) : ℤ := c.size

def Capacity (c : Cache K V) : ℤ := c.cap

/-- expire(): 0 when no expiration is configured, otherwise now + expiration
in wrapping uint32 arithmetic. -/
def expireStamp (c : Cache K V) (now : ℕ) : ℕ :=
  if c.expiration = 0 then 0 else (now + c.expiration) % 2 ^ 32

/-- expired(): a stamp of 0 never expires; otherwise expired once now has
reached the stamp. -/
def expiredAt (now : ℕ) (expire : ℕ) : Bool :=
  expire != 0 && expire ≤ now

/-- The private get: map lookup plus expiration check; does not mutate. -/
def getValue (c : Cache K V) (now : ℕ) (k : K) : Option (CacheValue V) :=
  match assocFind c.items k with
  | none => none
  | some cv => if expiredAt now cv.expire then none else some cv

/-- Peek: get without promotion. -/
def Peek (c : Cache K V) (now : ℕ) (k : K) : Option V :=
  (c.getValue now k).map (·.v)

/-- Get: get, then promote on a hit.  Sequentially the TryLock of Promote
always succeeds, so the promotion always runs. -/
def Get (c : Cache K V) (now : ℕ) (k : K) : Cache K V × Option V :=
  match c.getValue now k with
  | none => (c, none)
  | some cv => ({ c with policy := (c.policy.Promote k).1 }, some cv.v)

/-- One eviction pass, fuelled.  Each successful iteration removes one live
policy key, so any fuel above the live count makes the loop equal to the Go
for-loop: the fuel-exhausted branch is unreachable (evictsFuel_sufficient
below would make this precise; the callers always pass live + 1).
Returns none where the Go code would panic (victim missing from the map). -/
def evictsLoop : ℕ → Cache K V → Option (Cache K V × List (K × V))
  | 0, c => some (c, [])
  | fuel + 1, c =>
    if c.cap ≤ c.size then
      match c.policy.Evict with
      | (pol', some k) =>
        match assocFind c.items k with
        | none => none
        | some cv =>
          (evictsLoop fuel
            { c with policy := pol'
                     items := assocErase c.items k
                     length := c.length - 1
                     size := c.size - (cv.size : ℤ) }).map
            (fun r => (r.1, (k, cv.v) :: r.2))
      | (_, none) => some (c, [])
    else some (c, [])

/-- evicts(): the single-owner eviction pass (the CAS guard always wins for
a lone caller). -/
def evicts (c : Cache K V) : Option (Cache K V × List (K × V)) :=
  evictsLoop ((c.policy.t1.length + c.policy.t2.length) + 1) c

/-- SetS: clamp the size, build the CacheValue, atomically insert-or-replace.
Replacement adjusts size and fires the callback on the prior value.
Insertion runs the eviction pass, bumps the counters and adds to the policy
(none models the panic when the policy already holds the key).
The returned list is the sequence of eviction-callback invocations. -/
def SetS (c : Cache K V) (now : ℕ) (k : K) (v : V) (size0 : ℕ) :
    Option (Cache K V × List (K × V)) :=
  let size := max 1 size0
  let cv : CacheValue V := ⟨c.expireStamp now, size, v⟩
  match assocFind c.items k with
  | some prior =>
    some ({ c with items := assocReplace c.items k cv
                   size := c.size + (size : ℤ) - (prior.size : ℤ) },
          [(k, prior.v)])
  | none =>
    let c1 := { c with items := (k, cv) :: c.items }
    match c1.evicts with
    | none => none
    | some (c2, evs) =>
      let c3 := { c2 with length := c2.length + 1, size := c2.size + (size : ℤ) }
      let pa := c3.policy.Add k
      if pa.2 then some ({ c3 with policy := pa.1 }, evs) else none

/-- Set is SetS with size 1. -/
def Set (c : Cache K V) (now : ℕ) (k : K) (v : V) :
    Option (Cache K V × List (K × V)) :=
  c.SetS now k v 1

/-- The body of Clear: iterate the policy values, delete each from the map,
subtract its size and fire the callback.  Faithful to the source, the length
counter is not touched. -/
def clearLoop : List K → Cache K V → Option (Cache K V × List (K × V))
  | [], c => some (c, [])
  | k :: ks, c =>
    match assocFind c.items k with
    | none => none
    | some cv =>
      (clearLoop ks { c with items := assocErase c.items k
                             size := c.size - (cv.size : ℤ) }).map
        (fun r => (r.1, (k, cv.v) :: r.2))

/-- Clear: run the loop over Values, then clear the policy. -/
def Clear (c : Cache K V) : Option (Cache K V × List (K × V)) :=
  (clearLoop c.policy.Values c).map
    (fun r => ({ r.1 with policy := r.1.policy.Clear }, r.2))

/-- SetAvailableCapacity: single write of size + available clipped to
[1, max]. -/
def SetAvailableCapacity (c : Cache K V) (available maxC : ℤ) : Cache K V :=
  let n0 := c.size + available
  let n1 := if maxC < n0 then maxC else n0
  let n2 := if n1 ≤ 0 then 1 else n1
  { c with cap := n2 }

/-- SetLargerCapacity: new = min(max, min(size, cap) + available), applied
only when it strictly exceeds cap (the CAS succeeds sequentially). -/
def SetLargerCapacity (c : Cache K V) (available maxC : ℤ) : Cache K V :=
  let base := min c.size c.cap
  let n := min maxC (base + available)
  if n ≤ c.cap then c else { c with cap := n }

end Cache

/-- Driver for concrete cache scenarios (all at now = 0). -/
inductive CacheOp (K V : Type) where
  | setS (k : K) (v : V) (size : ℕ)
  | set (k : K) (v : V)
  | get (k : K)
  | peek (k : K)
  | clear
  | setAvailableCapacity (available maxC : ℤ)
  | setLargerCapacity (available maxC : ℤ)

def cacheStep {K V : Type} [DecidableEq K] (c : Cache K V) :
    CacheOp K V → Option (Cache K V)
  | .setS k v s => (c.SetS 0 k v s).map (·.1)
  | .set k v => (c.Set 0 k v).map (·.1)
  | .get k => some (c.Get 0 k).1
  | .peek _ => some c
  | .clear => c.Clear.map (·.1)
  | .setAvailableCapacity a m => some (c.SetAvailableCapacity a m)
  | .setLargerCapacity a m => some (c.SetLargerCapacity a m)

def cacheRun {K V : Type} [DecidableEq K] (c : Cache K V)
    (ops : List (CacheOp K V)) : Option (Cache K V) :=
  match ops with
  | [] => some c
  | op :: rest =>
    match cacheStep c op with
    | none => none
    | some c' => cacheRun c' rest

/-! ## Counting Node (counting/counting.go)

The Node tracks an int32 handle counter and a three-valued release state
(0 = open, 1 = node released, 2 = value released).  The model is the state
machine whose steps are the linearization points of the atomic operations:
  * mint      — Node.Handle / Node.OnceHandle (the successful CAS of inc,
                or the early-out when handles < 0);
  * hrelease  — Handle.Release of a handle not yet released (a repeat
                release of the same handle is a no-op, which the model
                expresses by acting only when an open handle exists);
  * nrelease  — Node.Release (the 0→1 CAS; a repeat call is a no-op).
openHandles counts minted handles whose Release has not run yet, standing
for the per-handle released booleans.  fired counts the value.Release
invocations.  The int32 overflow busy-wait guard of inc is not modelled
(reaching it needs 2^31 - 2 simultaneous handles). -/

structure NodeSt (V : Type) where
  value : V
  handles : ℤ
  released : ℕ
  openHandles : ℕ
  fired : ℕ
deriving DecidableEq, Repr

namespace NodeSt

variable {V : Type}

/-- NewNode. -/
def new (v : V) : NodeSt V := ⟨v, 0, 0, 0, 0⟩

/-- dec: handles.Add(-1); when the result is negative and the 1→2 CAS on
released succeeds, invoke value.Release. -/
def dec (n : NodeSt V) : NodeSt V :=
  let h := n.handles - 1
  if h < 0 ∧ n.released = 1 then
    { n with handles := h, released := 2, fired := n.fired + 1 }
  else
    { n with handles := h }

/-- Node.Release: 0→1 CAS then one dec; idempotent. -/
def nrelease (n : NodeSt V) : NodeSt V :=
  if n.released = 0 then dec { n with released := 1 } else n

/-- Node.Handle: fails iff handles < 0, otherwise increments and mints. -/
def mint (n : NodeSt V) : NodeSt V × Bool :=
  if n.handles < 0 then (n, false)
  else ({ n with handles := n.handles + 1, openHandles := n.openHandles + 1 }, true)

/-- Handle.Release of a not-yet-released handle (one dec); releasing an
already-released handle leaves the state unchanged. -/
def hrelease (n : NodeSt V) : NodeSt V :=
  if 0 < n.openHandles then dec { n with openHandles := n.openHandles - 1 } else n

end NodeSt

inductive NodeOp where
  | mint
  | hrelease
  | nrelease
deriving DecidableEq, Repr

def nodeStep {V : Type} (n : NodeSt V) : NodeOp → NodeSt V
  | .mint => (n.mint).1
  | .hrelease => n.hrelease
  | .nrelease => n.nrelease

def nodeRun {V : Type} (v : V) (ops : List NodeOp) : NodeSt V :=
  ops.foldl nodeStep (NodeSt.new v)

/-- counting Cache.SetS handle minting (counting.go: n := NewNode(v);
h, _ := n.Handle()): the ignored ok and the minted handle. -/
def countingSetS {V : Type} (v : V) : NodeSt V × Bool := (NodeSt.new v).mint

/-! ## Invariants used by the theorems -/

/-- The live keys of the policy, t1 then t2. -/
def liveList {K : Type} (c : ARC K) : List K := c.t1 ++ c.t2

/-- The keys of the map. -/
def itemKeys {K V : Type} (c : Cache K V) : List K := c.items.map Prod.fst

/-- Sum of the recorded sizes of the map entries. -/
def sumSizes {K V : Type} (l : List (K × CacheValue V)) : ℤ :=
  (l.map (fun p => (p.2.size : ℤ))).sum

/-- Sequential well-formedness of a cache state: map keys and live policy
keys are duplicate-free and coincide, the size counter is the sum of the
recorded sizes, and the capacity is at least 1.  (The length counter is
deliberately absent: Clear leaves it stale, see the C1 theorem.) -/
def WF {K V : Type} [DecidableEq K] (c : Cache K V) : Prop :=
  (itemKeys c).Nodup ∧
  (liveList c.policy).Nodup ∧
  (∀ k ∈ liveList c.policy, k ∈ itemKeys c) ∧
  (∀ k ∈ itemKeys c, k ∈ liveList c.policy) ∧
  c.size = sumSizes c.items ∧
  1 ≤ c.cap

instance {K V : Type} [DecidableEq K] [DecidableEq V] (c : Cache K V) :
    Decidable (WF c) := by
  unfold WF
  infer_instance

/-- Invariant holding during the eviction pass of an inserting SetS: the new
key k (of clamped size sz) is in the map but not yet in the policy, the
live keys are exactly the other map keys, and the size counter omits sz. -/
def EvInv {K V : Type} [DecidableEq K] (k : K) (sz : ℤ) (c : Cache K V) : Prop :=
  (itemKeys c).Nodup ∧
  (liveList c.policy).Nodup ∧
  (∀ x ∈ liveList c.policy, x ∈ itemKeys c ∧ x ≠ k) ∧
  (∀ x ∈ itemKeys c, x = k ∨ x ∈ liveList c.policy) ∧
  k ∈ itemKeys c ∧
  (∀ p ∈ c.items, p.1 = k → (p.2.size : ℤ) = sz) ∧
  c.size = sumSizes c.items - sz ∧
  1 ≤ c.cap

/-- Reachable shapes of a Node state: open (counter equals the open
handles), node-released (counter one below, value not yet released, so at
least one handle is still open), or value-released (counter -1, fired
exactly once). -/
def NodeInv {V : Type} (n : NodeSt V) : Prop :=
  (n.released = 0 ∧ n.fired = 0 ∧ n.handles = (n.openHandles : ℤ)) ∨
  (n.released = 1 ∧ n.fired = 0 ∧ 1 ≤ n.openHandles ∧
    n.handles = (n.openHandles : ℤ) - 1) ∨
  (n.released = 2 ∧ n.fired = 1 ∧ n.handles = -1 ∧ n.openHandles = 0)

/-! ## Node lifecycle theorems -/

theorem nodeInv_new {V : Type} (v : V) : NodeInv (NodeSt.new v) := by
  left
  simp [NodeSt.new]

theorem nodeInv_step {V : Type} (n : NodeSt V) (op : NodeOp) (h : NodeInv n) :
    NodeInv (nodeStep n op) := by
  obtain ⟨v, hd, r, o, f⟩ := n
  cases op <;>
    rcases h with ⟨h1, h2, h3⟩ | ⟨h1, h2, h3, h4⟩ | ⟨h1, h2, h3, h4⟩ <;>
    subst h1 <;>
    simp only [nodeStep, NodeSt.mint, NodeSt.hrelease, NodeSt.nrelease,
      NodeSt.dec, NodeInv] <;>
    split_ifs <;>
    simp_all <;>
    omega

theorem nodeInv_foldl {V : Type} (ops : List NodeOp) (n : NodeSt V)
    (h : NodeInv n) : NodeInv (ops.foldl nodeStep n) := by
  induction ops generalizing n with
  | nil => exact h
  | cons op rest ih => exact ih _ (nodeInv_step n op h)

theorem nodeStep_value {V : Type} (n : NodeSt V) (op : NodeOp) :
    (nodeStep n op).value = n.value := by
  cases op <;>
    simp only [nodeStep, NodeSt.mint, NodeSt.hrelease, NodeSt.nrelease,
      NodeSt.dec] <;>
    split_ifs <;>
    rfl

theorem nodeRun_value {V : Type} (v : V) (ops : List NodeOp) :
    (nodeRun v ops).value = v := by
  unfold nodeRun
  generalize hn : NodeSt.new v = n
  have hv : n.value = v := by rw [← hn]; rfl
  clear hn
  induction ops generalizing n with
  | nil => exact hv
  | cons op rest ih => exact ih _ (by rw [nodeStep_value]; exact hv)

/-- Claim C8: for every sequence of Node.Release, Handle creation and
Handle.Release operations, the wrapped value Release fires at most once; if
it fired, the node was released and the handles counter reached -1 with no
open handle left; once the node and every minted handle have released it has
fired exactly once; and no handle can be minted after it fired. -/
theorem node_value_release_once_c8 :
    ∀ (ops : List NodeOp) (v : ℕ),
      (nodeRun v ops).fired ≤ 1 ∧
      ((nodeRun v ops).fired = 1 →
        (nodeRun v ops).released = 2 ∧ (nodeRun v ops).handles = -1 ∧
          (nodeRun v ops).openHandles = 0) ∧
      ((nodeRun v ops).released ≠ 0 ∧ (nodeRun v ops).openHandles = 0 →
        (nodeRun v ops).fired = 1) ∧
      (1 ≤ (nodeRun v ops).fired → ((nodeRun v ops).mint).2 = false) ∧
      (nodeRun v ops).value = v := by
  intro ops v
  have hinv : NodeInv (nodeRun v ops) := nodeInv_foldl ops _ (nodeInv_new v)
  refine ⟨?_, ?_, ?_, ?_, nodeRun_value v ops⟩
  · rcases hinv with ⟨_, h, _⟩ | ⟨_, h, _⟩ | ⟨_, h, _⟩ <;> omega
  · intro hf
    rcases hinv with ⟨_, h, _⟩ | ⟨_, h, _, _⟩ | ⟨h1, _, h3, h4⟩
    · omega
    · omega
    · exact ⟨h1, h3, h4⟩
  · rintro ⟨hr, ho⟩
    rcases hinv with ⟨h1, _, _⟩ | ⟨_, _, h3, _⟩ | ⟨_, h2, _, _⟩ <;> omega
  · intro hf
    rcases hinv with ⟨_, h, _⟩ | ⟨_, h, _, _⟩ | ⟨_, _, h3, _⟩
    · omega
    · omega
    · simp [NodeSt.mint, h3]

theorem node_value_release_once_c8_witness :
    (nodeRun 0 [NodeOp.mint, NodeOp.nrelease, NodeOp.hrelease]).released = 2 ∧
      (nodeRun 0 [NodeOp.mint, NodeOp.nrelease, NodeOp.hrelease]).handles = -1 ∧
      (nodeRun 0 [NodeOp.mint, NodeOp.nrelease, NodeOp.hrelease]).openHandles = 0 :=
  (node_value_release_once_c8 [.mint, .nrelease, .hrelease] 0).2.1 (by decide)

/-- Claim C9: the Node.Handle call inside counting Cache.SetS acts on a
fresh node whose handles counter is 0, so it always succeeds (the ignored
ok is true) and the returned handle carries exactly the value just stored. -/
theorem counting_setS_handle_c9 :
    ∀ (v : ℕ),
      countingSetS v = (⟨v, 1, 0, 1, 0⟩, true) ∧
        (countingSetS v).1.value = v ∧ (countingSetS v).2 = true := by
  intro v
  refine ⟨?_, rfl, rfl⟩
  rfl

/-! ## Association list lemmas -/

section AssocLemmas

variable {K V : Type} [DecidableEq K]

theorem assocFind_eq_none_iff (l : List (K × V)) (k : K) :
    assocFind l k = none ↔ k ∉ l.map Prod.fst := by
  induction l with
  | nil => simp [assocFind]
  | cons p rest ih =>
    obtain ⟨k', v⟩ := p
    simp only [assocFind, List.map_cons, List.mem_cons]
    by_cases h : k' = k
    · subst h
      simp
    · simp [h, ih, Ne.symm h]

theorem assocFind_mem_keys (l : List (K × V)) (k : K) (hk : k ∈ l.map Prod.fst) :
    ∃ v, assocFind l k = some v := by
  cases h : assocFind l k with
  | none => exact absurd hk ((assocFind_eq_none_iff l k).mp h)
  | some v => exact ⟨v, rfl⟩

theorem assocErase_keys (l : List (K × V)) (k : K) :
    (assocErase l k).map Prod.fst = (l.map Prod.fst).erase k := by
  induction l with
  | nil => simp [assocErase]
  | cons p rest ih =>
    obtain ⟨k', v⟩ := p
    by_cases h : k' = k <;> simp [assocErase, h, ih, List.erase_cons]

theorem assocErase_subset (l : List (K × V)) (k : K) (p : K × V)
    (hp : p ∈ assocErase l k) : p ∈ l := by
  induction l with
  | nil => simp [assocErase] at hp
  | cons q rest ih =>
    obtain ⟨k', v⟩ := q
    by_cases h : k' = k
    · simp only [assocErase, if_pos h] at hp
      exact List.mem_cons_of_mem _ hp
    · simp only [assocErase, if_neg h, List.mem_cons] at hp
      rcases hp with hp | hp
      · exact hp ▸ List.mem_cons_self _ _
      · exact List.mem_cons_of_mem _ (ih hp)

theorem assocErase_sumSizes {W : Type} (l : List (K × CacheValue W)) (k : K)
    (cv : CacheValue W) (h : assocFind l k = some cv) :
    sumSizes (assocErase l k) = sumSizes l - (cv.size : ℤ) := by
  induction l with
  | nil => simp [assocFind] at h
  | cons p rest ih =>
    obtain ⟨k', v⟩ := p
    by_cases hk : k' = k
    · simp only [assocFind, if_pos hk, Option.some.injEq] at h
      subst h
      simp [assocErase, if_pos hk, sumSizes]
    · simp only [assocFind, if_neg hk] at h
      have hrec := ih h
      simp only [assocErase, if_neg hk, sumSizes, List.map_cons,
        List.sum_cons] at hrec ⊢
      omega

theorem assocReplace_keys (l : List (K × V)) (k : K) (v : V) :
    (assocReplace l k v).map Prod.fst = l.map Prod.fst := by
  induction l with
  | nil => simp [assocReplace]
  | cons p rest ih =>
    obtain ⟨k', v'⟩ := p
    by_cases h : k' = k <;> simp [assocReplace, h, ih]

theorem assocReplace_length (l : List (K × V)) (k : K) (v : V) :
    (assocReplace l k v).length = l.length := by
  induction l with
  | nil => rfl
  | cons p rest ih =>
    obtain ⟨k', v'⟩ := p
    by_cases h : k' = k <;> simp [assocReplace, h, ih]

theorem assocFind_assocReplace_self (l : List (K × V)) (k : K) (v : V)
    (hk : k ∈ l.map Prod.fst) :
    assocFind (assocReplace l k v) k = some v := by
  induction l with
  | nil => simp at hk
  | cons p rest ih =>
    obtain ⟨k', v'⟩ := p
    by_cases h : k' = k
    · simp [assocReplace, assocFind, h]
    · have : k ∈ rest.map Prod.fst := by
        simp only [List.map_cons, List.mem_cons] at hk
        rcases hk with hk | hk
        · exact absurd hk.symm h
        · exact hk
      simp [assocReplace, assocFind, h, ih this]

theorem assocFind_assocReplace_ne (l : List (K × V)) (k k2 : K) (v : V)
    (hne : k2 ≠ k) :
    assocFind (assocReplace l k v) k2 = assocFind l k2 := by
  induction l with
  | nil => rfl
  | cons p rest ih =>
    obtain ⟨k', v'⟩ := p
    by_cases h : k' = k
    · subst h
      simp [assocReplace, assocFind, Ne.symm hne, hne]
    · by_cases h2 : k' = k2
      · subst h2
        simp [assocReplace, assocFind, h]
      · simp [assocReplace, assocFind, h, h2, ih]

theorem assocReplace_sumSizes {W : Type} (l : List (K × CacheValue W)) (k : K)
    (cv prior : CacheValue W) (h : assocFind l k = some prior) :
    sumSizes (assocReplace l k cv) = sumSizes l - (prior.size : ℤ) + (cv.size : ℤ) := by
  induction l with
  | nil => simp [assocFind] at h
  | cons p rest ih =>
    obtain ⟨k', v⟩ := p
    by_cases hk : k' = k
    · simp only [assocFind, if_pos hk, Option.some.injEq] at h
      subst h
      simp [assocReplace, if_pos hk, sumSizes]
      ring
    · simp only [assocFind, if_neg hk] at h
      have hrec := ih h
      simp only [assocReplace, if_neg hk, sumSizes, List.map_cons,
        List.sum_cons] at hrec ⊢
      omega

end AssocLemmas

/-! ## tRemove and Values lemmas -/

section TRemoveLemmas

variable {K : Type}

theorem tRemove_eq_none_iff (skip : K → Bool) (l : List K) :
    ARC.tRemove skip l = none ↔ ∀ x ∈ l, skip x = true := by
  induction l with
  | nil => simp [ARC.tRemove]
  | cons x xs ih =>
    simp only [ARC.tRemove]
    cases h : ARC.tRemove skip xs with
    | some p =>
      simp only [h, Option.some.injEq] at ih ⊢
      constructor
      · intro hc
        exact absurd hc (by simp)
      · intro hall
        exact absurd (ih.mpr fun x hx => hall x (List.mem_cons_of_mem _ hx))
          (by simp)
    | none =>
      have hall := ih.mp h
      split_ifs with hs
      · constructor
        · intro _ y hy
          rcases List.mem_cons.mp hy with rfl | hy2
          · exact hs
          · exact hall y hy2
        · intro _
          rfl
      · constructor
        · intro hc
          cases hc
        · intro hall2
          exact absurd (hall2 x (List.mem_cons_self x xs)) (by simp [hs])

theorem tRemove_some (skip : K → Bool) :
    ∀ (l l' : List K) (e : K), ARC.tRemove skip l = some (e, l') →
      skip e = false ∧ ∃ pre suf, l = pre ++ e :: suf ∧ l' = pre ++ suf ∧
        ∀ x ∈ suf, skip x = true := by
  intro l
  induction l with
  | nil => intro l' e h; simp [ARC.tRemove] at h
  | cons x xs ih =>
    intro l' e h
    simp only [ARC.tRemove] at h
    cases hx : ARC.tRemove skip xs with
    | some p =>
      rw [hx] at h
      simp only [Option.some.injEq, Prod.mk.injEq] at h
      obtain ⟨he, hl'⟩ := h
      obtain ⟨hsk, pre, suf, h1, h2, h3⟩ := ih p.2 p.1 (by rw [hx])
      subst he
      refine ⟨hsk, x :: pre, suf, by simp [h1], by rw [← hl', h2]; rfl, h3⟩
    | none =>
      rw [hx] at h
      by_cases hs : skip x = true
      · rw [if_pos hs] at h
        cases h
      · rw [if_neg hs] at h
        simp only [Option.some.injEq, Prod.mk.injEq] at h
        obtain ⟨he, hl'⟩ := h
        subst he
        subst hl'
        exact ⟨by simpa using hs, [], xs, rfl, rfl,
          (tRemove_eq_none_iff skip xs).mp hx⟩

theorem tRemove_perm (skip : K → Bool) (l l' : List K) (e : K)
    (h : ARC.tRemove skip l = some (e, l')) : List.Perm l (e :: l') := by
  obtain ⟨_, pre, suf, h1, h2, _⟩ := tRemove_some skip l l' e h
  rw [h1, h2]
  exact List.perm_middle

theorem tRemove_false_none_iff (l : List K) :
    ARC.tRemove (fun _ => false) l = none ↔ l = [] := by
  rw [tRemove_eq_none_iff]
  constructor
  · intro hall
    cases l with
    | nil => rfl
    | cons a as => exact absurd (hall a (List.mem_cons_self a as)) (by simp)
  · intro h
    subst h
    simp

theorem valuesGo_nil_right : ∀ l : List K, ARC.valuesGo l [] = l := by
  intro l
  induction l with
  | nil => rfl
  | cons y ys ih => simp [ARC.valuesGo, ih]

theorem valuesGo_eq_spec : ∀ t1 t2 : List K,
    ARC.valuesGo t1 t2 = specHotToCold t1 t2 := by
  intro t1
  induction t1 with
  | nil =>
    intro t2
    simp [ARC.valuesGo, specHotToCold]
  | cons x xs ih =>
    intro t2
    cases t2 with
    | nil => simp [valuesGo_nil_right, specHotToCold]
    | cons y ys => simp [ARC.valuesGo, ih ys, specHotToCold]

theorem valuesGo_perm : ∀ t1 t2 : List K,
    List.Perm (ARC.valuesGo t1 t2) (t1 ++ t2) := by
  intro t1
  induction t1 with
  | nil =>
    intro t2
    simp [ARC.valuesGo]
  | cons x xs ih =>
    intro t2
    cases t2 with
    | nil => simp [valuesGo_nil_right]
    | cons y ys =>
      simp only [ARC.valuesGo, List.cons_append]
      refine List.Perm.cons x ?_
      exact ((ih ys).cons y).trans List.perm_middle.symm

end TRemoveLemmas

/-! ## ARC operation lemmas -/

section ArcLemmas

variable {K : Type}

/-- Complete case analysis of EvictSkip: a victim from t1, a victim from t2,
or no victim (with the reason the t1 tail was not taken). -/
theorem evictSkip_cases (c : ARC K) (skip : K → Bool) :
    (∃ e t1', ARC.tRemove skip c.t1 = some (e, t1') ∧
       c.EvictSkip skip = ({ c with t1 := t1', b1 := e :: c.b1 }, some e)) ∨
    (∃ e t2', ARC.tRemove skip c.t2 = some (e, t2') ∧
       c.EvictSkip skip = ({ c with t2 := t2', b2 := e :: c.b2 }, some e)) ∨
    (ARC.tRemove skip c.t2 = none ∧ c.EvictSkip skip = (c, none) ∧
       (¬(0 < c.t1.length ∧ (c.t1TargetLen < (c.t1.length : ℤ) ∨ c.t2.length = 0)) ∨
         ARC.tRemove skip c.t1 = none)) := by
  by_cases hcond : 0 < c.t1.length ∧ (c.t1TargetLen < (c.t1.length : ℤ) ∨ c.t2.length = 0)
  · cases h1 : ARC.tRemove skip c.t1 with
    | some p =>
      obtain ⟨e, t1'⟩ := p
      left
      exact ⟨e, t1', rfl, by simp only [ARC.EvictSkip, if_pos hcond, h1]⟩
    | none =>
      cases h2 : ARC.tRemove skip c.t2 with
      | some p =>
        obtain ⟨e, t2'⟩ := p
        right; left
        exact ⟨e, t2', rfl, by simp only [ARC.EvictSkip, if_pos hcond, h1, h2]⟩
      | none =>
        right; right
        exact ⟨rfl, by simp only [ARC.EvictSkip, if_pos hcond, h1, h2], Or.inr rfl⟩
  · cases h2 : ARC.tRemove skip c.t2 with
    | some p =>
      obtain ⟨e, t2'⟩ := p
      right; left
      exact ⟨e, t2', rfl, by simp only [ARC.EvictSkip, if_neg hcond, h2]⟩
    | none =>
      right; right
      exact ⟨rfl, by simp only [ARC.EvictSkip, if_neg hcond, h2], Or.inl hcond⟩

theorem evictSkip_all_skipped (c : ARC K) (skip : K → Bool)
    (h : ∀ x ∈ liveList c, skip x = true) : c.EvictSkip skip = (c, none) := by
  have h1 : ARC.tRemove skip c.t1 = none :=
    (tRemove_eq_none_iff skip c.t1).mpr
      (fun x hx => h x (List.mem_append_left _ hx))
  have h2 : ARC.tRemove skip c.t2 = none :=
    (tRemove_eq_none_iff skip c.t2).mpr
      (fun x hx => h x (List.mem_append_right _ hx))
  by_cases hcond : 0 < c.t1.length ∧ (c.t1TargetLen < (c.t1.length : ℤ) ∨ c.t2.length = 0)
  · simp only [ARC.EvictSkip, if_pos hcond, h1, h2]
  · simp only [ARC.EvictSkip, if_neg hcond, h2]

theorem evictSkip_some (c c' : ARC K) (skip : K → Bool) (e : K)
    (h : c.EvictSkip skip = (c', some e)) :
    skip e = false ∧
      ((∃ t1', ARC.tRemove skip c.t1 = some (e, t1') ∧
          c' = { c with t1 := t1', b1 := e :: c.b1 }) ∨
       (∃ t2', ARC.tRemove skip c.t2 = some (e, t2') ∧
          c' = { c with t2 := t2', b2 := e :: c.b2 })) := by
  rcases evictSkip_cases c skip with ⟨e', t1', hr, he⟩ | ⟨e', t2', hr, he⟩ | ⟨_, he, _⟩
  · rw [he] at h
    injection h with hc hev
    injection hev with hee
    subst hee
    exact ⟨(tRemove_some skip _ _ _ hr).1, Or.inl ⟨t1', hr, hc.symm⟩⟩
  · rw [he] at h
    injection h with hc hev
    injection hev with hee
    subst hee
    exact ⟨(tRemove_some skip _ _ _ hr).1, Or.inr ⟨t2', hr, hc.symm⟩⟩
  · rw [he] at h
    injection h with hc hev
    cases hev

theorem evictSkip_none_id (c c' : ARC K) (skip : K → Bool)
    (h : c.EvictSkip skip = (c', none)) : c' = c := by
  rcases evictSkip_cases c skip with ⟨e', t1', _, he⟩ | ⟨e', t2', _, he⟩ | ⟨_, he, _⟩ <;>
    rw [he] at h <;>
    injection h with hc hev
  · cases hev
  · cases hev
  · exact hc.symm

theorem evictSkip_some_live (c c' : ARC K) (skip : K → Bool) (e : K)
    (h : c.EvictSkip skip = (c', some e)) :
    List.Perm (liveList c) (e :: liveList c') := by
  rcases (evictSkip_some c c' skip e h).2 with ⟨t1', hr, rfl⟩ | ⟨t2', hr, rfl⟩
  · exact (tRemove_perm skip c.t1 t1' e hr).append_right c.t2
  · exact ((tRemove_perm skip c.t2 t2' e hr).append_left c.t1).trans
      List.perm_middle

/-- Promote permutes the live keys (it moves one key between or within the
t-lists and never touches anything else). -/
theorem promote_live_perm [DecidableEq K] (c : ARC K) (k : K) :
    List.Perm (liveList (c.Promote k).1) (liveList c) := by
  by_cases h2 : k ∈ c.t2
  · simp only [ARC.Promote, if_pos h2, liveList]
    exact ((List.perm_cons_erase h2).append_left c.t1).symm
  · by_cases h1 : k ∈ c.t1
    · simp only [ARC.Promote, if_neg h2, if_pos h1, liveList]
      refine List.perm_middle.trans ?_
      exact (((List.perm_cons_erase h1).append_right c.t2).symm)
    · simp [ARC.Promote, if_neg h2, if_neg h1, liveList]

/-- Add on a key that is not live succeeds and pushes exactly that key into
the live set (into t2 on a ghost hit, into t1 on a pure miss). -/
theorem add_not_live [DecidableEq K] (c : ARC K) (k : K)
    (hk : k ∉ liveList c) :
    (c.Add k).2 = true ∧
      List.Perm (liveList (c.Add k).1) (k :: liveList c) := by
  have hk2 : k ∉ c.t2 := fun h => hk (List.mem_append_right _ h)
  have hk1 : k ∉ c.t1 := fun h => hk (List.mem_append_left _ h)
  have hmem : ¬(k ∈ c.t2 ∨ k ∈ c.t1) := by
    rintro (h | h)
    · exact hk2 h
    · exact hk1 h
  by_cases hb2 : k ∈ c.b2
  · refine ⟨by simp only [ARC.Add, if_neg hmem, if_pos hb2], ?_⟩
    simp only [ARC.Add, if_neg hmem, if_pos hb2, liveList, ARC.b2Hit,
      ARC.setT1TargetFraction]
    exact List.perm_middle
  · by_cases hb1 : k ∈ c.b1
    · refine ⟨by simp only [ARC.Add, if_neg hmem, if_neg hb2, if_pos hb1], ?_⟩
      simp only [ARC.Add, if_neg hmem, if_neg hb2, if_pos hb1, liveList,
        ARC.b1Hit, ARC.setT1TargetFraction]
      exact List.perm_middle
    · refine ⟨by simp only [ARC.Add, if_neg hmem, if_neg hb2, if_neg hb1], ?_⟩
      simp only [ARC.Add, if_neg hmem, if_neg hb2, if_neg hb1, liveList]
      exact List.Perm.refl _

end ArcLemmas

/-! ## GFloat lemmas for the adaptation formula -/

section GFloatLemmas

theorem clip01_finite (v : GFloat) (h : v ≠ .nan) :
    GFloat.Finite01 (ARC.clip01 v) := by
  cases v with
  | fin q =>
    refine ⟨min (max q 0) 1, ?_, ?_, ?_⟩
    · simp [ARC.clip01, GFloat.fmax, GFloat.fmin]
    · exact le_min (le_max_right q 0) zero_le_one
    · exact min_le_right _ _
  | inf => exact ⟨1, by simp [ARC.clip01, GFloat.fmax, GFloat.fmin], by norm_num⟩
  | negInf =>
    exact ⟨0, by simp [ARC.clip01, GFloat.fmax, GFloat.fmin], by norm_num⟩
  | nan => exact absurd rfl h

theorem clip01_inf : ARC.clip01 .inf = .fin 1 := by
  simp [ARC.clip01, GFloat.fmax, GFloat.fmin]

theorem clip01_negInf : ARC.clip01 .negInf = .fin 0 := by
  simp [ARC.clip01, GFloat.fmax, GFloat.fmin]

theorem fin_add_fin (a b : ℚ) :
    (GFloat.fin a) + (GFloat.fin b) = GFloat.fin (a + b) := rfl

theorem fin_add_inf (a : ℚ) : (GFloat.fin a) + GFloat.inf = GFloat.inf := rfl

theorem fin_add_negInf (a : ℚ) :
    (GFloat.fin a) + GFloat.negInf = GFloat.negInf := rfl

theorem fin_div_zero_pos (a : ℚ) (ha : 0 < a) :
    (GFloat.fin a) / (GFloat.fin 0) = GFloat.inf := by
  show GFloat.div _ _ = _
  simp [GFloat.div, ha]

theorem fin_div_zero_neg (a : ℚ) (ha : a < 0) :
    (GFloat.fin a) / (GFloat.fin 0) = GFloat.negInf := by
  show GFloat.div _ _ = _
  simp [GFloat.div, ha, not_lt_of_lt ha, ne_of_lt ha]

theorem fin_div_fin_ne (a b : ℚ) (hb : b ≠ 0) :
    (GFloat.fin a) / (GFloat.fin b) = GFloat.fin (a / b) := by
  show GFloat.div _ _ = _
  simp [GFloat.div, hb]

theorem neg_fin (a : ℚ) : -(GFloat.fin a) = GFloat.fin (-a) := rfl

/-- b1Delta is a finite float of value at least 1 when b1 is nonempty. -/
theorem b1Delta_ge_one {K : Type} (c : ARC K) (hb : c.b1 ≠ []) :
    ∃ q : ℚ, c.b1Delta = .fin q ∧ 1 ≤ q := by
  have hpos : (0 : ℚ) < (c.b1.length : ℚ) := by
    have := List.length_pos.mpr hb
    exact_mod_cast this
  unfold ARC.b1Delta
  split_ifs with h
  · refine ⟨(c.b2.length : ℚ) / (c.b1.length : ℚ), rfl, ?_⟩
    rw [le_div_iff₀ hpos, one_mul]
    exact_mod_cast Nat.le_of_lt h
  · exact ⟨1, rfl, le_refl 1⟩

/-- b2Delta is a finite float of value at least 1 when b2 is nonempty. -/
theorem b2Delta_ge_one {K : Type} (c : ARC K) (hb : c.b2 ≠ []) :
    ∃ q : ℚ, c.b2Delta = .fin q ∧ 1 ≤ q := by
  have hpos : (0 : ℚ) < (c.b2.length : ℚ) := by
    have := List.length_pos.mpr hb
    exact_mod_cast this
  unfold ARC.b2Delta
  split_ifs with h
  · refine ⟨(c.b1.length : ℚ) / (c.b2.length : ℚ), rfl, ?_⟩
    rw [le_div_iff₀ hpos, one_mul]
    exact_mod_cast Nat.le_of_lt h
  · exact ⟨1, rfl, le_refl 1⟩

end GFloatLemmas

/-! ## Adaptation lemmas and claims C3, C4, C7 -/

theorem assocFind_some_mem {K V : Type} [DecidableEq K]
    (l : List (K × V)) (k : K) {v : V} (h : assocFind l k = some v) :
    k ∈ l.map Prod.fst := by
  by_contra hc
  rw [(assocFind_eq_none_iff l k).mpr hc] at h
  cases h

theorem setT1TargetFraction_finite {K : Type} (c : ARC K) (q : ℚ)
    (hq : q ≠ 0) (hp : GFloat.Finite01 c.t1TargetFraction) :
    GFloat.Finite01 ((c.setT1TargetFraction (.fin q)).t1TargetFraction) := by
  obtain ⟨p, hpe, hp0, hp1⟩ := hp
  show GFloat.Finite01 (ARC.clip01 _)
  by_cases ht : (c.tLen : ℚ) = 0
  · rw [hpe, ht]
    rcases lt_trichotomy q 0 with hlt | heq | hgt
    · rw [fin_div_zero_neg q hlt, fin_add_negInf, clip01_negInf]
      exact ⟨0, rfl, le_refl 0, by norm_num⟩
    · exact absurd heq hq
    · rw [fin_div_zero_pos q hgt, fin_add_inf, clip01_inf]
      exact ⟨1, rfl, by norm_num, le_refl 1⟩
  · rw [hpe, fin_div_fin_ne q _ ht, fin_add_fin]
    exact clip01_finite _ (by simp)

/-- Claim C3: Values yields every live key by ping-ponging the heads of t1
and t2 and draining whichever list is longer; it is a permutation of the
live set; and on the pinned scenario (Add 0..9, Promote 3 7 6 7, Evict
twice) it yields exactly [9, 7, 8, 6, 5, 3, 4, 2]. -/
theorem values_hot_order_c3 :
    (∀ c : ARC ℕ, c.Values = specHotToCold c.t1 c.t2) ∧
    (∀ c : ARC ℕ, List.Perm c.Values (c.t1 ++ c.t2)) ∧
    (arcRun (((List.range 10).map ArcOp.add) ++
        [.promote 3, .promote 7, .promote 6, .promote 7, .evict, .evict]) : ARC ℕ).Values
      = [9, 7, 8, 6, 5, 3, 4, 2] :=
  ⟨fun c => valuesGo_eq_spec c.t1 c.t2, fun c => valuesGo_perm c.t1 c.t2,
    by with_unfolding_all decide⟩

/-- Claim C4: a ghost hit updates p by the clipped formula
p + delta/(|t1|+|t2|) (b1 side) or p - delta/(|t1|+|t2|) (b2 side) with
delta = max(1, opposite/hit ghost ratio); the result is always a finite
value in [0,1] (never NaN), and when |t1|+|t2| = 0 it saturates to the
bound (1 for a b1 hit, 0 for a b2 hit); the pinned scenario ends with
T2Len 1, B1Len 2 and p exactly 1. -/
theorem ghost_hit_adaptation_c4 :
    (∀ c : ARC ℕ, GFloat.Finite01 c.t1TargetFraction → c.b1 ≠ [] →
      (c.b1Hit).t1TargetFraction
          = ARC.clip01 (c.t1TargetFraction + c.b1Delta / GFloat.fin (c.tLen : ℚ)) ∧
        GFloat.Finite01 ((c.b1Hit).t1TargetFraction) ∧
        (c.tLen = 0 → (c.b1Hit).t1TargetFraction = .fin 1)) ∧
    (∀ c : ARC ℕ, GFloat.Finite01 c.t1TargetFraction → c.b2 ≠ [] →
      (c.b2Hit).t1TargetFraction
          = ARC.clip01 (c.t1TargetFraction + (-c.b2Delta) / GFloat.fin (c.tLen : ℚ)) ∧
        GFloat.Finite01 ((c.b2Hit).t1TargetFraction) ∧
        (c.tLen = 0 → (c.b2Hit).t1TargetFraction = .fin 0)) ∧
    (arcRun [ArcOp.add 1, .add 2, .add 3, .evict, .evict, .evict, .add 1] : ARC ℕ).params
      = ⟨0, 1, 2, 0, .fin 1⟩ := by
  refine ⟨?_, ?_, by with_unfolding_all decide⟩
  · intro c hp hb
    obtain ⟨q, hdq, hq1⟩ := b1Delta_ge_one c hb
    have hqpos : (0 : ℚ) < q := lt_of_lt_of_le one_pos hq1
    refine ⟨rfl, ?_, ?_⟩
    · rw [ARC.b1Hit, hdq]
      exact setT1TargetFraction_finite c q (ne_of_gt hqpos) hp
    · intro ht
      obtain ⟨p, hpe, _, _⟩ := hp
      rw [ARC.b1Hit, hdq]
      show ARC.clip01 _ = _
      rw [hpe, ht, Nat.cast_zero, fin_div_zero_pos q hqpos, fin_add_inf,
        clip01_inf]
  · intro c hp hb
    obtain ⟨q, hdq, hq1⟩ := b2Delta_ge_one c hb
    have hqpos : (0 : ℚ) < q := lt_of_lt_of_le one_pos hq1
    refine ⟨rfl, ?_, ?_⟩
    · rw [ARC.b2Hit, hdq, neg_fin]
      exact setT1TargetFraction_finite c (-q) (by exact neg_ne_zero.mpr (ne_of_gt hqpos)) hp
    · intro ht
      obtain ⟨p, hpe, _, _⟩ := hp
      rw [ARC.b2Hit, hdq, neg_fin]
      show ARC.clip01 _ = _
      rw [hpe, ht, Nat.cast_zero, fin_div_zero_neg (-q) (neg_neg_of_pos hqpos),
        fin_add_negInf, clip01_negInf]

theorem ghost_hit_adaptation_c4_witness :
    ((⟨[], [], [5], [], .fin 0⟩ : ARC ℕ).b1Hit).t1TargetFraction = .fin 1 :=
  (ghost_hit_adaptation_c4.1 ⟨[], [], [5], [], .fin 0⟩
    ⟨0, rfl, le_refl 0, by norm_num⟩ (by simp)).2.2 rfl

/-- Claim C7 (amended): EvictSkip scans the tails backwards taking the first
non-skipped key of the scanned list and demotes it to the matching ghost
list; when the live set is empty or every live key is skipped it returns no
victim and leaves the state unchanged; Evict() fails exactly when t1 and t2
are both empty.  (The original "returns false exactly when the live set is
empty or every live candidate is skipped" is too strong: when t1 is within
target and t2 is nonempty, only t2 is scanned, so a non-skipped t1 key can
be missed — see the counterexample.) -/
theorem evict_skip_scan_c7 :
    (∀ (skip : ℕ → Bool) (l l' : List ℕ) (e : ℕ),
      ARC.tRemove skip l = some (e, l') →
      skip e = false ∧ ∃ pre suf, l = pre ++ e :: suf ∧ l' = pre ++ suf ∧
        ∀ x ∈ suf, skip x = true) ∧
    (∀ (skip : ℕ → Bool) (l : List ℕ),
      ARC.tRemove skip l = none ↔ ∀ x ∈ l, skip x = true) ∧
    (∀ (c : ARC ℕ) (skip : ℕ → Bool),
      (∀ x ∈ liveList c, skip x = true) → c.EvictSkip skip = (c, none)) ∧
    (∀ c : ARC ℕ, (c.Evict).2 = none ↔ c.t1 = [] ∧ c.t2 = []) ∧
    (∀ (c c' : ARC ℕ) (skip : ℕ → Bool) (e : ℕ), c.EvictSkip skip = (c', some e) →
      skip e = false ∧
        ((∃ t1', ARC.tRemove skip c.t1 = some (e, t1') ∧
            c' = { c with t1 := t1', b1 := e :: c.b1 }) ∨
         (∃ t2', ARC.tRemove skip c.t2 = some (e, t2') ∧
            c' = { c with t2 := t2', b2 := e :: c.b2 }))) := by
  refine ⟨tRemove_some, tRemove_eq_none_iff, evictSkip_all_skipped, ?_, evictSkip_some⟩
  intro c
  constructor
  · intro h
    rcases evictSkip_cases c (fun _ => false) with
      ⟨e', t1', hr, he⟩ | ⟨e', t2', hr, he⟩ | ⟨h2, _, h3⟩
    · rw [show c.Evict = _ from he] at h
      cases h
    · rw [show c.Evict = _ from he] at h
      cases h
    · have ht2 : c.t2 = [] := (tRemove_false_none_iff c.t2).mp h2
      rcases h3 with h3 | h3
      · refine ⟨?_, ht2⟩
        by_contra ht1
        have hlen : 0 < c.t1.length := List.length_pos.mpr ht1
        exact h3 ⟨hlen, Or.inr (by simp [ht2])⟩
      · exact ⟨(tRemove_false_none_iff c.t1).mp h3, ht2⟩
  · rintro ⟨h1, h2⟩
    show (c.EvictSkip _).2 = none
    rw [evictSkip_all_skipped c _ (by simp [liveList, h1, h2])]

theorem evict_skip_scan_c7_witness :
    (⟨[1], [2], [], [], .fin 0⟩ : ARC ℕ).EvictSkip (fun _ => true)
      = (⟨[1], [2], [], [], .fin 0⟩, none) :=
  evict_skip_scan_c7.2.2.1 ⟨[1], [2], [], [], .fin 0⟩ (fun _ => true)
    (by intro x hx; rfl)

theorem evict_skip_scan_c7_counterexample :
    ((arcRun [ArcOp.add 1, .add 2, .evict, .add 1] : ARC ℕ).EvictSkip
        (fun k => k == 1))
      = ((arcRun [ArcOp.add 1, .add 2, .evict, .add 1] : ARC ℕ), none) ∧
    2 ∈ liveList (arcRun [ArcOp.add 1, .add 2, .evict, .add 1] : ARC ℕ) ∧
    (fun k : ℕ => k == 1) 2 = false := by
  with_unfolding_all decide

/-! ## Claims C1, C5, C10 (cache core lookups, replacement, Clear) -/

/-- Claim C1 (code bug): Clear deletes every policy key from the map,
subtracts each recorded size and fires the callback, and clearing the
policy leaves Size() = 0 — but the length counter is never decremented, so
after Set(1); Clear() the code reports Len() = 1 where the claim (and the
spec invariant Len == map size) require 0. -/
theorem clear_counters_c1 :
    cacheRun (Cache.new ℕ Unit 100 0) [.set 1 (), .clear] =
      some ⟨0, [], ⟨[], [], [], [], .fin 0⟩, 100, 0, 1⟩ ∧
    (cacheRun (Cache.new ℕ Unit 100 0) [.set 1 (), .clear]).map Cache.Size
      = some 0 ∧
    (cacheRun (Cache.new ℕ Unit 100 0) [.set 1 (), .clear]).map Cache.Len
      = some 1 := by
  with_unfolding_all decide

/-- Claim C5: SetS on a key with a live prior entry adjusts the size counter
by new size minus prior size, fires the eviction callback exactly once on
(k, prior value), and changes nothing else: length, policy, capacity and
every other map entry are untouched and Len() is unchanged. -/
theorem setS_replacement_frame_c5 :
    ∀ (st : Cache ℕ ℕ) (now k v sz : ℕ) (prior : CacheValue ℕ),
      assocFind st.items k = some prior →
      ∃ st', st.SetS now k v sz = some (st', [(k, prior.v)]) ∧
        st'.items = assocReplace st.items k ⟨st.expireStamp now, max 1 sz, v⟩ ∧
        st'.size = st.size + ((max 1 sz : ℕ) : ℤ) - (prior.size : ℤ) ∧
        st'.length = st.length ∧ st'.policy = st.policy ∧ st'.cap = st.cap ∧
        st'.Len = st.Len ∧
        assocFind st'.items k = some ⟨st.expireStamp now, max 1 sz, v⟩ ∧
        ∀ k2, k2 ≠ k → assocFind st'.items k2 = assocFind st.items k2 := by
  intro st now k v sz prior h
  refine ⟨{ st with
      items := assocReplace st.items k ⟨st.expireStamp now, max 1 sz, v⟩,
      size := st.size + ((max 1 sz : ℕ) : ℤ) - (prior.size : ℤ) },
    ?_, rfl, rfl, rfl, rfl, rfl, rfl, ?_, ?_⟩
  · simp only [Cache.SetS, h]
  · exact assocFind_assocReplace_self _ _ _ (assocFind_some_mem _ _ h)
  · intro k2 hk2
    exact assocFind_assocReplace_ne _ _ _ _ hk2

theorem setS_replacement_frame_c5_witness :
    ∃ st', (⟨0, [(1, ⟨0, 2, 5⟩)], ⟨[1], [], [], [], .fin 0⟩, 10, 2, 1⟩ :
        Cache ℕ ℕ).SetS 0 1 7 3 = some (st', [(1, 5)]) ∧
      st'.items = assocReplace [(1, ⟨0, 2, 5⟩)] 1 ⟨0, 3, 7⟩ ∧
      st'.size = 2 + ((max 1 3 : ℕ) : ℤ) - (2 : ℤ) ∧
      st'.length = 1 ∧ st'.policy = ⟨[1], [], [], [], .fin 0⟩ ∧ st'.cap = 10 ∧
      st'.Len = 1 ∧ assocFind st'.items 1 = some ⟨0, 3, 7⟩ ∧
      ∀ k2, k2 ≠ 1 → assocFind st'.items k2 = assocFind [(1, ⟨0, 2, 5⟩)] k2 :=
  setS_replacement_frame_c5 ⟨0, [(1, ⟨0, 2, 5⟩)], ⟨[1], [], [], [], .fin 0⟩, 10, 2, 1⟩
    0 1 7 3 ⟨0, 2, 5⟩ rfl

/-- Claim C10: looking up an expired key misses without mutating anything:
Peek returns none, Get returns none and the very same state (no promotion,
no deletion), and the entry stays in the map, so it keeps counting toward
Len() and Size() until replaced, evicted or cleared. -/
theorem expired_lookup_frame_c10 :
    ∀ (st : Cache ℕ ℕ) (now k : ℕ) (cv : CacheValue ℕ),
      assocFind st.items k = some cv → cv.expire ≠ 0 → cv.expire ≤ now →
      st.Peek now k = none ∧ st.Get now k = (st, none) ∧ k ∈ itemKeys st := by
  intro st now k cv h hne hle
  have hexp : Cache.expiredAt now cv.expire = true := by
    simp [Cache.expiredAt, hne, hle]
  have hget : st.getValue now k = none := by
    simp [Cache.getValue, h, hexp]
  refine ⟨?_, ?_, assocFind_some_mem _ _ h⟩
  · simp [Cache.Peek, hget]
  · simp [Cache.Get, hget]

theorem expired_lookup_frame_c10_witness :
    (⟨5, [(1, ⟨3, 1, 42⟩)], ⟨[1], [], [], [], .fin 0⟩, 100, 1, 1⟩ :
        Cache ℕ ℕ).Peek 10 1 = none ∧
    (⟨5, [(1, ⟨3, 1, 42⟩)], ⟨[1], [], [], [], .fin 0⟩, 100, 1, 1⟩ :
        Cache ℕ ℕ).Get 10 1
      = (⟨5, [(1, ⟨3, 1, 42⟩)], ⟨[1], [], [], [], .fin 0⟩, 100, 1, 1⟩, none) ∧
    1 ∈ itemKeys (⟨5, [(1, ⟨3, 1, 42⟩)], ⟨[1], [], [], [], .fin 0⟩, 100, 1, 1⟩ :
        Cache ℕ ℕ) :=
  expired_lookup_frame_c10 _ 10 1 ⟨3, 1, 42⟩ rfl (by decide) (by decide)

/-! ## Sequential invariant machinery for the eviction pass -/

section CacheInvariant

variable {K V : Type} [DecidableEq K]

theorem evict_none_live_nil {K2 : Type} (c : ARC K2) (h : (c.Evict).2 = none) :
    c.t1 = [] ∧ c.t2 = [] := by
  rcases evictSkip_cases c (fun _ => false) with
    ⟨e', t1', hr, he⟩ | ⟨e', t2', hr, he⟩ | ⟨h2, _, h3⟩
  · rw [show c.Evict = _ from he] at h
    cases h
  · rw [show c.Evict = _ from he] at h
    cases h
  · have ht2 := (tRemove_false_none_iff c.t2).mp h2
    rcases h3 with h3 | h3
    · refine ⟨?_, ht2⟩
      by_contra ht1
      exact h3 ⟨List.length_pos.mpr ht1, Or.inr (by simp [ht2])⟩
    · exact ⟨(tRemove_false_none_iff c.t1).mp h3, ht2⟩

theorem wf_new (cap : ℤ) (exp : ℕ) : WF (Cache.new K V cap exp) := by
  refine ⟨?_, ?_, ?_, ?_, ?_, ?_⟩
  · simp [Cache.new, itemKeys]
  · simp [Cache.new, liveList, ARC.new]
  · simp [Cache.new, liveList, ARC.new]
  · simp [Cache.new, itemKeys]
  · simp [Cache.new, sumSizes]
  · show 1 ≤ (if cap ≤ 0 then 100 else cap)
    split_ifs <;> omega

/-- One run of the fuelled eviction loop from a mid-insertion state: it
succeeds, preserves the invariant and ends strictly below capacity. -/
theorem evictsLoop_run :
    ∀ (fuel : ℕ) (k : K) (sz : ℤ) (c : Cache K V),
      EvInv k sz c → (liveList c.policy).length < fuel →
      ∃ c' evs, Cache.evictsLoop fuel c = some (c', evs) ∧ EvInv k sz c' ∧
        c'.size < c'.cap ∧ c'.cap = c.cap := by
  intro fuel
  induction fuel with
  | zero =>
    intro k sz c _ hf
    exact absurd hf (Nat.not_lt_zero _)
  | succ fuel ih =>
    intro k sz c hInv hf
    by_cases hsz : c.cap ≤ c.size
    · obtain ⟨hKN, hLN, hLK, hKL, hkM, hkS, hS, hC⟩ := hInv
      rcases hev : c.policy.Evict with ⟨pol', res⟩
      cases res with
      | none =>
        exfalso
        obtain ⟨ht1, ht2⟩ := evict_none_live_nil c.policy (by rw [hev])
        have hlive : liveList c.policy = [] := by simp [liveList, ht1, ht2]
        have hall : ∀ p ∈ c.items, p.1 = k := by
          intro p hp
          refine (hKL p.1 (List.mem_map_of_mem Prod.fst hp)).resolve_right ?_
          simp [hlive]
        cases hI : c.items with
        | nil =>
          simp [itemKeys, hI] at hkM
        | cons p rest =>
          cases rest with
          | nil =>
            have hp1 : p.1 = k := hall p (by simp [hI])
            have hps : (p.2.size : ℤ) = sz := hkS p (by simp [hI]) hp1
            have hzero : c.size = 0 := by
              rw [hS, hI]
              simp [sumSizes, hps]
            omega
          | cons q rest2 =>
            have hp1 : p.1 = k := hall p (by simp [hI])
            have hq1 : q.1 = k := hall q (by simp [hI])
            simp [itemKeys, hI, hp1, hq1] at hKN
      | some e =>
        have hperm : List.Perm (liveList c.policy) (e :: liveList pol') :=
          evictSkip_some_live c.policy pol' (fun _ => false) e hev
        have heL : e ∈ liveList c.policy :=
          hperm.symm.subset (List.mem_cons_self e _)
        obtain ⟨heK, hek⟩ := hLK e heL
        obtain ⟨cve, hfind⟩ := assocFind_mem_keys c.items e heK
        have heNotLive : e ∉ liveList pol' := by
          have := hperm.nodup_iff.mp hLN
          exact (List.nodup_cons.mp this).1
        have hInv2 : EvInv k sz
            ({ c with
                policy := pol'
                items := assocErase c.items e
                length := c.length - 1
                size := c.size - (cve.size : ℤ) } : Cache K V) := by
          refine ⟨?_, ?_, ?_, ?_, ?_, ?_, ?_, hC⟩
          · show ((assocErase c.items e).map Prod.fst).Nodup
            rw [assocErase_keys]
            exact hKN.erase e
          · exact (List.nodup_cons.mp (hperm.nodup_iff.mp hLN)).2
          · intro x hx
            have hxc : x ∈ liveList c.policy := hperm.symm.subset
              (List.mem_cons_of_mem e hx)
            obtain ⟨hxK, hxk⟩ := hLK x hxc
            have hxe : x ≠ e := fun hxe => heNotLive (hxe ▸ hx)
            refine ⟨?_, hxk⟩
            show x ∈ (assocErase c.items e).map Prod.fst
            rw [assocErase_keys]
            exact (List.mem_erase_of_ne hxe).mpr hxK
          · intro x hx
            have hx2 : x ∈ (itemKeys c).erase e := by
              have hx3 : x ∈ (assocErase c.items e).map Prod.fst := hx
              rwa [assocErase_keys] at hx3
            have hxe : x ≠ e := (hKN.mem_erase_iff.mp hx2).1
            have hxK : x ∈ itemKeys c := (hKN.mem_erase_iff.mp hx2).2
            rcases hKL x hxK with h | h
            · exact Or.inl h
            · right
              have : x ∈ e :: liveList pol' := hperm.subset h
              exact (List.mem_cons.mp this).resolve_left hxe
          · show k ∈ (assocErase c.items e).map Prod.fst
            rw [assocErase_keys]
            exact (List.mem_erase_of_ne (Ne.symm hek)).mpr hkM
          · intro p hp hpk
            exact hkS p (assocErase_subset _ _ _ hp) hpk
          · show c.size - (cve.size : ℤ) = sumSizes (assocErase c.items e) - sz
            rw [assocErase_sumSizes c.items e cve hfind]
            omega
        have hlen2 : (liveList pol').length < fuel := by
          have := hperm.length_eq
          simp only [List.length_cons] at this
          omega
        obtain ⟨c', evs, heq, hI', hlt, hcap⟩ := ih k sz _ hInv2 hlen2
        refine ⟨c', (e, cve.v) :: evs, ?_, hI', hlt, by rw [hcap]⟩
        show Cache.evictsLoop (fuel + 1) c = _
        simp only [Cache.evictsLoop, if_pos hsz, hev, hfind, heq]
        rfl
    · refine ⟨c, [], ?_, hInv, lt_of_not_le hsz, rfl⟩
      simp only [Cache.evictsLoop, if_neg hsz]

theorem evicts_run (k : K) (sz : ℤ) (c : Cache K V) (hInv : EvInv k sz c) :
    ∃ c' evs, c.evicts = some (c', evs) ∧ EvInv k sz c' ∧
      c'.size < c'.cap ∧ c'.cap = c.cap :=
  evictsLoop_run (c.policy.t1.length + c.policy.t2.length + 1) k sz c hInv
    (by simp only [liveList, List.length_append]; omega)

/-- SetS replacement branch, fully evaluated. -/
theorem setS_replace_eq (st : Cache K V) (now : ℕ) (k : K) (v : V) (sz : ℕ)
    (prior : CacheValue V) (h : assocFind st.items k = some prior) :
    st.SetS now k v sz =
      some ({ st with
          items := assocReplace st.items k ⟨st.expireStamp now, max 1 sz, v⟩,
          size := st.size + ((max 1 sz : ℕ) : ℤ) - (prior.size : ℤ) },
        [(k, prior.v)]) := by
  simp only [Cache.SetS, h]

/-- SetS insertion branch: from a well-formed state the call succeeds,
preserves well-formedness, keeps the capacity and ends with
size ≤ cap - 1 + clamped new size. -/
theorem setS_insert (st : Cache K V) (now : ℕ) (k : K) (v : V) (sz : ℕ)
    (hWF : WF st) (habs : assocFind st.items k = none) :
    ∃ st' evs, st.SetS now k v sz = some (st', evs) ∧ WF st' ∧
      st'.size ≤ st.cap - 1 + ((max 1 sz : ℕ) : ℤ) ∧ st'.cap = st.cap := by
  obtain ⟨hKN, hLN, hLK, hKL, hS, hC⟩ := hWF
  have hkNot : k ∉ itemKeys st := (assocFind_eq_none_iff _ _).mp habs
  have hInv1 : EvInv k ((max 1 sz : ℕ) : ℤ)
      { st with items := (k, ⟨st.expireStamp now, max 1 sz, v⟩) :: st.items } := by
    refine ⟨?_, hLN, ?_, ?_, ?_, ?_, ?_, hC⟩
    · show (((k, (⟨st.expireStamp now, max 1 sz, v⟩ : CacheValue V)) :: st.items).map
        Prod.fst).Nodup
      simp only [List.map_cons, List.nodup_cons]
      exact ⟨hkNot, hKN⟩
    · intro x hx
      have hxK := hLK x hx
      refine ⟨List.mem_cons_of_mem _ hxK, fun he => hkNot (he ▸ hxK)⟩
    · intro x hx
      rcases List.mem_cons.mp hx with h | h
      · exact Or.inl h
      · exact Or.inr (hKL x h)
    · exact List.mem_cons_self _ _
    · intro p hp hpk
      rcases List.mem_cons.mp hp with h | h
      · rw [h]
      · exact absurd (hpk ▸ List.mem_map_of_mem Prod.fst h) hkNot
    · show st.size = sumSizes _ - _
      simp only [sumSizes, List.map_cons, List.sum_cons]
      rw [hS]
      simp [sumSizes]
  obtain ⟨c2, evs, hev, hInv2, hlt, hcap⟩ := evicts_run k _ _ hInv1
  have hkNotLive : k ∉ liveList c2.policy := fun hx => (hInv2.2.2.1 k hx).2 rfl
  obtain ⟨hAddOk, hAddPerm⟩ := add_not_live c2.policy k hkNotLive
  obtain ⟨hKN2, hLN2, hLK2, hKL2, hkM2, hkS2, hS2, hC2⟩ := hInv2
  refine ⟨({ c2 with
      length := c2.length + 1
      size := c2.size + ((max 1 sz : ℕ) : ℤ)
      policy := (c2.policy.Add k).1 } : Cache K V),
    evs, ?_, ⟨hKN2, ?_, ?_, ?_, ?_, ?_⟩, ?_, ?_⟩
  · show Cache.SetS st now k v sz = _
    simp only [Cache.SetS, habs]
    rw [show ({ st with items :=
        (k, (⟨st.expireStamp now, max 1 sz, v⟩ : CacheValue V)) :: st.items } :
        Cache K V).evicts = some (c2, evs) from hev]
    simp only [hAddOk, if_pos]
  · exact hAddPerm.nodup_iff.mpr (List.nodup_cons.mpr ⟨hkNotLive, hLN2⟩)
  · intro x hx
    have : x ∈ k :: liveList c2.policy := hAddPerm.subset hx
    rcases List.mem_cons.mp this with rfl | h
    · exact hkM2
    · exact (hLK2 x h).1
  · intro x hx
    rcases hKL2 x hx with h | h
    · exact hAddPerm.symm.subset (h ▸ List.mem_cons_self _ _)
    · exact hAddPerm.symm.subset (List.mem_cons_of_mem _ h)
  · show c2.size + ((max 1 sz : ℕ) : ℤ) = sumSizes c2.items
    omega
  · exact hcap ▸ hC
  · show c2.size + ((max 1 sz : ℕ) : ℤ) ≤ st.cap - 1 + ((max 1 sz : ℕ) : ℤ)
    have : c2.cap = st.cap := hcap
    omega
  · exact hcap

/-- SetS preserves well-formedness (both branches). -/
theorem setS_wf (st : Cache K V) (now : ℕ) (k : K) (v : V) (sz : ℕ)
    (hWF : WF st) :
    ∀ r, st.SetS now k v sz = some r → WF r.1 := by
  intro r hr
  cases hfind : assocFind st.items k with
  | some prior =>
    rw [setS_replace_eq st now k v sz prior hfind] at hr
    injection hr with hr
    obtain ⟨hKN, hLN, hLK, hKL, hS, hC⟩ := hWF
    rw [← hr]
    refine ⟨?_, hLN, ?_, ?_, ?_, hC⟩
    · show ((assocReplace st.items k _).map Prod.fst).Nodup
      rw [assocReplace_keys]
      exact hKN
    · intro x hx
      show x ∈ (assocReplace st.items k _).map Prod.fst
      rw [assocReplace_keys]
      exact hLK x hx
    · intro x hx
      have hx2 : x ∈ (assocReplace st.items k _).map Prod.fst := hx
      rw [assocReplace_keys] at hx2
      exact hKL x hx2
    · show st.size + ((max 1 sz : ℕ) : ℤ) - (prior.size : ℤ)
        = sumSizes (assocReplace st.items k ⟨st.expireStamp now, max 1 sz, v⟩)
      rw [assocReplace_sumSizes st.items k _ prior hfind, hS]
      ring
  | none =>
    obtain ⟨st', evs, heq, hWF', _, _⟩ := setS_insert st now k v sz hWF hfind
    rw [heq] at hr
    injection hr with hr
    rw [← hr]
    exact hWF'

/-- Get preserves well-formedness (the promotion permutes the live keys). -/
theorem get_wf (st : Cache K V) (now : ℕ) (k : K) (hWF : WF st) :
    WF (st.Get now k).1 := by
  obtain ⟨hKN, hLN, hLK, hKL, hS, hC⟩ := hWF
  unfold Cache.Get
  cases hg : st.getValue now k with
  | none => exact ⟨hKN, hLN, hLK, hKL, hS, hC⟩
  | some cv =>
    have hperm := promote_live_perm st.policy k
    refine ⟨hKN, hperm.nodup_iff.mpr hLN, ?_, ?_, hS, hC⟩
    · intro x hx
      exact hLK x (hperm.subset hx)
    · intro x hx
      exact hperm.symm.subset (hKL x hx)

/-- The Clear loop: iterating a duplicate-free enumeration of the map keys
deletes everything and drives the size counter to zero (length untouched). -/
theorem clearLoop_run :
    ∀ (ks : List K) (c : Cache K V), ks.Nodup →
      (∀ x, x ∈ ks ↔ x ∈ itemKeys c) → (itemKeys c).Nodup →
      c.size = sumSizes c.items →
      ∃ c' evs, Cache.clearLoop ks c = some (c', evs) ∧ c'.items = [] ∧
        c'.size = 0 ∧ c'.cap = c.cap ∧ c'.policy = c.policy ∧
        c'.length = c.length := by
  intro ks
  induction ks with
  | nil =>
    intro c _ hiff hKN hs
    have hkeys : itemKeys c = [] := by
      refine List.eq_nil_iff_forall_not_mem.mpr (fun x hx => ?_)
      exact absurd ((hiff x).mpr hx) (List.not_mem_nil x)
    have hitems : c.items = [] := by
      cases h : c.items with
      | nil => rfl
      | cons p rest =>
        simp [itemKeys, h] at hkeys
    refine ⟨c, [], rfl, hitems, ?_, rfl, rfl, rfl⟩
    rw [hs, hitems]
    rfl
  | cons x ks ih =>
    intro c hnd hiff hKN hs
    have hxK : x ∈ itemKeys c := (hiff x).mp (List.mem_cons_self x ks)
    obtain ⟨cv, hfind⟩ := assocFind_mem_keys c.items x hxK
    have hxks : x ∉ ks := (List.nodup_cons.mp hnd).1
    have hksnd : ks.Nodup := (List.nodup_cons.mp hnd).2
    obtain ⟨c', evs, heq, hi1, hi2, hi3, hi4, hi5⟩ :=
      ih ({ c with
              items := assocErase c.items x
              size := c.size - (cv.size : ℤ) } : Cache K V)
        hksnd
        (by
          intro y
          constructor
          · intro hy
            have hyK : y ∈ itemKeys c := (hiff y).mp (List.mem_cons_of_mem x hy)
            have hyx : y ≠ x := fun he => hxks (he ▸ hy)
            show y ∈ (assocErase c.items x).map Prod.fst
            rw [assocErase_keys]
            exact (List.mem_erase_of_ne hyx).mpr hyK
          · intro hy
            have hy2 : y ∈ (assocErase c.items x).map Prod.fst := hy
            rw [assocErase_keys] at hy2
            have hyx : y ≠ x := (hKN.mem_erase_iff.mp hy2).1
            have hyK : y ∈ itemKeys c := (hKN.mem_erase_iff.mp hy2).2
            rcases List.mem_cons.mp ((hiff y).mpr hyK) with h | h
            · exact absurd h hyx
            · exact h)
        (by
          show ((assocErase c.items x).map Prod.fst).Nodup
          rw [assocErase_keys]
          exact hKN.erase x)
        (by
          show c.size - (cv.size : ℤ) = sumSizes (assocErase c.items x)
          rw [assocErase_sumSizes c.items x cv hfind, hs])
    refine ⟨c', (x, cv.v) :: evs, ?_, hi1, hi2, hi3, hi4, hi5⟩
    simp only [Cache.clearLoop, hfind, heq]
    rfl

/-- Clear preserves well-formedness (size returns to 0, the policy empties;
the stale length counter is irrelevant to WF). -/
theorem clear_wf (st : Cache K V) (hWF : WF st) :
    ∃ st' evs, st.Clear = some (st', evs) ∧ WF st' ∧ st'.cap = st.cap := by
  obtain ⟨hKN, hLN, hLK, hKL, hS, hC⟩ := hWF
  have hperm : List.Perm st.policy.Values (liveList st.policy) :=
    valuesGo_perm st.policy.t1 st.policy.t2
  obtain ⟨c', evs, heq, hi1, hi2, hi3, hi4, _⟩ :=
    clearLoop_run st.policy.Values st
      (hperm.nodup_iff.mpr hLN)
      (by
        intro y
        constructor
        · intro hy
          exact hLK y (hperm.subset hy)
        · intro hy
          exact hperm.symm.subset (hKL y hy))
      hKN hS
  refine ⟨{ c' with policy := c'.policy.Clear }, evs, ?_, ?_, hi3⟩
  · show (Cache.clearLoop st.policy.Values st).map _ = _
    rw [heq]
    rfl
  · refine ⟨?_, ?_, ?_, ?_, ?_, hi3 ▸ hC⟩
    · show (c'.items.map Prod.fst).Nodup
      rw [hi1]
      exact List.nodup_nil
    · show (liveList (ARC.new K)).Nodup
      simp [liveList, ARC.new]
    · intro x hx
      simp [liveList, ARC.Clear, ARC.new] at hx
    · intro x hx
      have hx2 : x ∈ c'.items.map Prod.fst := hx
      rw [hi1] at hx2
      cases hx2
    · show c'.size = sumSizes c'.items
      rw [hi1, hi2]
      rfl

/-- Each modelled cache operation preserves well-formedness. -/
theorem cacheStep_wf (c : Cache K V) (op : CacheOp K V) (hWF : WF c) :
    ∀ c', cacheStep c op = some c' → WF c' := by
  intro c' h
  cases op with
  | setS k v s =>
    simp only [cacheStep] at h
    cases hr : c.SetS 0 k v s with
    | none => rw [hr] at h; cases h
    | some r =>
      rw [hr] at h
      injection h with h
      exact h ▸ setS_wf c 0 k v s hWF r hr
  | set k v =>
    simp only [cacheStep, Cache.Set] at h
    cases hr : c.SetS 0 k v 1 with
    | none => rw [hr] at h; cases h
    | some r =>
      rw [hr] at h
      injection h with h
      exact h ▸ setS_wf c 0 k v 1 hWF r hr
  | get k =>
    simp only [cacheStep] at h
    injection h with h
    exact h ▸ get_wf c 0 k hWF
  | peek k =>
    simp only [cacheStep] at h
    injection h with h
    exact h ▸ hWF
  | clear =>
    simp only [cacheStep] at h
    obtain ⟨st', evs, heq, hWF', _⟩ := clear_wf c hWF
    rw [heq] at h
    injection h with h
    exact h ▸ hWF'
  | setAvailableCapacity a m =>
    simp only [cacheStep] at h
    injection h with h
    subst h
    obtain ⟨h1, h2, h3, h4, h5, _⟩ := hWF
    refine ⟨h1, h2, h3, h4, h5, ?_⟩
    show (1 : ℤ) ≤ (c.SetAvailableCapacity a m).cap
    simp only [Cache.SetAvailableCapacity]
    split_ifs <;> omega
  | setLargerCapacity a m =>
    simp only [cacheStep] at h
    injection h with h
    subst h
    obtain ⟨h1, h2, h3, h4, h5, h6⟩ := hWF
    by_cases hle : min m (min c.size c.cap + a) ≤ c.cap
    · have : c.SetLargerCapacity a m = c := by
        simp only [Cache.SetLargerCapacity, if_pos hle]
      rw [this]
      exact ⟨h1, h2, h3, h4, h5, h6⟩
    · have heq2 : c.SetLargerCapacity a m
          = { c with cap := min m (min c.size c.cap + a) } := by
        simp only [Cache.SetLargerCapacity, if_neg hle]
      rw [heq2]
      refine ⟨h1, h2, h3, h4, h5, ?_⟩
      show (1 : ℤ) ≤ min m (min c.size c.cap + a)
      omega

/-- Well-formedness holds along every successful run. -/
theorem cacheRun_wf :
    ∀ (ops : List (CacheOp K V)) (c : Cache K V), WF c →
      ∀ c', cacheRun c ops = some c' → WF c' := by
  intro ops
  induction ops with
  | nil =>
    intro c hWF c' h
    injection h with h
    exact h ▸ hWF
  | cons op rest ih =>
    intro c hWF c' h
    simp only [cacheRun] at h
    cases hstep : cacheStep c op with
    | none => rw [hstep] at h; cases h
    | some c2 =>
      rw [hstep] at h
      exact ih c2 (cacheStep_wf c op hWF c2 hstep) c' h

end CacheInvariant

/-! ## Claims C2 and C6 (size accounting and the eviction pass) -/

/-- Claim C2 (amended): sequentially, every state reachable from a fresh
cache is well-formed and every SetS succeeds; a SetS that inserts a new key
ends with Size() ≤ Capacity() - 1 + (clamped size of the new entry), the
capacity unchanged; a SetS that replaces adjusts Size() by the size delta
and runs no eviction at all.  (The original claim Size() ≤ Capacity() after
every Set fails on the code: the eviction pass runs before the new size is
added and stops as soon as size < capacity, so the new entry itself can push
Size() past Capacity() — see the counterexample.) -/
theorem setS_size_bound_c2 :
    (∀ (cap0 : ℤ) (exp0 : ℕ) (ops : List (CacheOp ℕ Unit)) (st : Cache ℕ Unit),
        cacheRun (Cache.new ℕ Unit cap0 exp0) ops = some st → WF st) ∧
    (∀ (st : Cache ℕ Unit) (now k : ℕ) (v : Unit) (sz : ℕ), WF st →
        assocFind st.items k = none →
        ∃ st' evs, st.SetS now k v sz = some (st', evs) ∧
          st'.Size ≤ st'.Capacity - 1 + ((max 1 sz : ℕ) : ℤ) ∧
          st'.Capacity = st.Capacity) ∧
    (∀ (st : Cache ℕ Unit) (now k : ℕ) (v : Unit) (sz : ℕ)
        (prior : CacheValue Unit), assocFind st.items k = some prior →
        ∃ st', st.SetS now k v sz = some (st', [(k, prior.v)]) ∧
          st'.Size = st.Size + ((max 1 sz : ℕ) : ℤ) - (prior.size : ℤ)) := by
  refine ⟨?_, ?_, ?_⟩
  · intro cap0 exp0 ops st h
    exact cacheRun_wf ops _ (wf_new cap0 exp0) st h
  · intro st now k v sz hWF habs
    obtain ⟨st', evs, heq, _, hbound, hcap⟩ := setS_insert st now k v sz hWF habs
    exact ⟨st', evs, heq, by rw [show st'.Capacity = st.cap from hcap]; exact hbound,
      hcap⟩
  · intro st now k v sz prior hfind
    exact ⟨_, setS_replace_eq st now k v sz prior hfind, rfl⟩

theorem setS_size_bound_c2_witness :
    ∃ st' evs, (Cache.new ℕ Unit 10 0).SetS 0 1 () 2 = some (st', evs) ∧
      st'.Size ≤ st'.Capacity - 1 + ((max 1 2 : ℕ) : ℤ) ∧
      st'.Capacity = (Cache.new ℕ Unit 10 0).Capacity :=
  setS_size_bound_c2.2.1 (Cache.new ℕ Unit 10 0) 0 1 () 2 (wf_new 10 0) rfl

theorem setS_size_bound_c2_counterexample :
    cacheRun (Cache.new ℕ Unit 10 0) [.setS 1 () 6, .setS 2 () 6] =
      some ⟨0, [(2, ⟨0, 6, ()⟩), (1, ⟨0, 6, ()⟩)],
        ⟨[2, 1], [], [], [], .fin 0⟩, 10, 12, 2⟩ ∧
    (⟨0, [(2, ⟨0, 6, ()⟩), (1, ⟨0, 6, ()⟩)],
        ⟨[2, 1], [], [], [], .fin 0⟩, 10, 12, 2⟩ : Cache ℕ Unit).Capacity
      < (⟨0, [(2, ⟨0, 6, ()⟩), (1, ⟨0, 6, ()⟩)],
        ⟨[2, 1], [], [], [], .fin 0⟩, 10, 12, 2⟩ : Cache ℕ Unit).Size := by
  with_unfolding_all decide

/-- Claim C6: the eviction pass is a loop guarded by size ≥ capacity: below
capacity it does nothing; with an empty policy it stops; otherwise one
iteration evicts the policy victim, deletes that key from the map,
decrements length and size by the recorded size and records the callback,
then continues; the pinned scenario (cap 10; SetS sizes 4, 6, 1, then a
replacing 1) ends with exactly the live keys {2, 3}, Size() = 7 and
Len() = 2. -/
theorem evicts_pass_c6 :
    (∀ (st : Cache ℕ Unit) (fuel : ℕ), st.size < st.cap →
        Cache.evictsLoop (fuel + 1) st = some (st, [])) ∧
    (∀ (st : Cache ℕ Unit) (fuel : ℕ), liveList st.policy = [] →
        Cache.evictsLoop (fuel + 1) st = some (st, [])) ∧
    (∀ (st : Cache ℕ Unit) (fuel : ℕ) (pol' : ARC ℕ) (e : ℕ)
        (cv : CacheValue Unit),
        st.cap ≤ st.size → st.policy.Evict = (pol', some e) →
        assocFind st.items e = some cv →
        Cache.evictsLoop (fuel + 1) st =
          (Cache.evictsLoop fuel ({ st with
              policy := pol'
              items := assocErase st.items e
              length := st.length - 1
              size := st.size - (cv.size : ℤ) } : Cache ℕ Unit)).map
            (fun r => (r.1, (e, cv.v) :: r.2))) ∧
    (cacheRun (Cache.new ℕ Unit 10 0)
        [.setS 1 () 4, .setS 2 () 6, .setS 3 () 1, .setS 3 () 1]
      = some ⟨0, [(3, ⟨0, 1, ()⟩), (2, ⟨0, 6, ()⟩)],
          ⟨[3, 2], [], [1], [], .fin 0⟩, 10, 7, 2⟩) := by
  refine ⟨?_, ?_, ?_, by with_unfolding_all decide⟩
  · intro st fuel hlt
    simp only [Cache.evictsLoop, if_neg (not_le_of_lt hlt)]
  · intro st fuel hlive
    have ht1 : st.policy.t1 = [] := by
      have := congrArg List.length hlive
      simp only [liveList, List.length_append, List.length_nil] at this
      exact List.eq_nil_of_length_eq_zero (by omega)
    have ht2 : st.policy.t2 = [] := by
      have := congrArg List.length hlive
      simp only [liveList, List.length_append, List.length_nil] at this
      exact List.eq_nil_of_length_eq_zero (by omega)
    have hev : st.policy.Evict = (st.policy, none) :=
      evictSkip_all_skipped st.policy _ (by simp [liveList, ht1, ht2])
    by_cases hsz : st.cap ≤ st.size
    · simp only [Cache.evictsLoop, if_pos hsz, hev]
    · simp only [Cache.evictsLoop, if_neg hsz]
  · intro st fuel pol' e cv hsz hev hfind
    simp only [Cache.evictsLoop, if_pos hsz, hev, hfind]

theorem evicts_pass_c6_witness :
    Cache.evictsLoop 1 (Cache.new ℕ Unit 10 0) = some (Cache.new ℕ Unit 10 0, []) :=
  evicts_pass_c6.1 (Cache.new ℕ Unit 10 0) 0 (by with_unfolding_all decide)

end GraxCache
